import Mathlib

/-!
Verification of the maia-rust codec (src/maia.rs, src/tensor.rs, src/error.rs,
src/types.rs, src/moves.rs) against its natural-language specification.

Modelling conventions:
* `f32` board-tensor cells hold only the exact values 0.0 and 1.0, so the board
  tensor is modelled over `ℚ`; the decoder works with `exp`, so raw values,
  logits and probabilities are modelled over `ℝ` (real arithmetic stands in for
  f32 arithmetic, which is the mathematical content of the spec's claims).
* Rust panics (assert_eq!, explicit panic!, out-of-bounds indexing, unwrap on
  None) are modelled by the `Outcome.panicked` constructor, distinct from the
  `Result::Err` channel modelled by `Outcome.err`.
* The ONNX Runtime session (`session.run`), the shakmaty legal-move generator,
  the FEN parser and the embedded move vocabulary are external collaborators of
  the codec; they enter the model as function parameters, so every theorem
  holds for an arbitrary engine / rules backend.
* Rust's stable `sort_by` is modelled by `List.mergeSort`, which is the stable
  sort of the Lean core library.
-/

namespace Maia

/-- Piece colour, as in shakmaty's `Color`. -/
inductive Color where
  | white
  | black
deriving DecidableEq, Repr

/-- Modelled from the spec: the rules engine's colour swap used by the mirror
transform ("swap piece colors"). -/
def Color.other : Color → Color
  | .white => .black
  | .black => .white

/-- shakmaty's `Color::is_white`. -/
def Color.is_white : Color → Bool
  | .white => true
  | .black => false

/-- shakmaty's `Color::is_black`. -/
def Color.is_black : Color → Bool
  | .white => false
  | .black => true

/-- Piece role, as in shakmaty's `Role`. -/
inductive Role where
  | pawn
  | knight
  | bishop
  | rook
  | queen
  | king
deriving DecidableEq, Repr

/-- A coloured piece, as in shakmaty's `Piece`. -/
structure Piece where
  color : Color
  role : Role
deriving DecidableEq, Repr

/-- A board square: file a..h is index 0..7, rank 1..8 is index 0..7,
as in shakmaty's `Square` (`sq.file()`, `sq.rank()`). -/
structure Square where
  file : Fin 8
  rank : Fin 8
deriving DecidableEq, Repr

/-- `Square::ALL`: the list of all 64 squares. -/
def Square.ALL : List Square :=
  (List.finRange 8).flatMap fun r => (List.finRange 8).map fun f => ⟨f, r⟩

/-- Modelled from the spec: vertical reflection of a square ("reflect the
board vertically"); the file is kept and the rank is flipped. -/
def Square.mirrorV (sq : Square) : Square :=
  ⟨sq.file, ⟨7 - sq.rank.val, by omega⟩⟩

/-- A move in UCI notation, as in shakmaty's `UciMove::Normal`. -/
structure UciMove where
  src : Square
  dst : Square
  promotion : Option Role
deriving DecidableEq, Repr

/-- Modelled from the spec: shakmaty's `UciMove::to_mirrored`, "a pure
transform on move notation that produces the notation of the geometrically
mirrored move". -/
def UciMove.to_mirrored (m : UciMove) : UciMove :=
  ⟨m.src.mirrorV, m.dst.mirrorV, m.promotion⟩

/-- A board setup, as in shakmaty's `Setup`: piece placement, side to move,
castling rights (the set of rook home squares retaining the right) and the
optional en-passant target square. -/
structure Setup where
  board : Square → Option Piece
  turn : Color
  castling_rights : List Square
  ep_square : Option Square

/-- Modelled from the spec: shakmaty's `Setup::mirror`, "reflect the board
vertically and swap piece colors, so that the position becomes logically
equivalent but with White now to move (castling rights and en-passant target
are transformed consistently with this reflection)". -/
def Setup.mirror (s : Setup) : Setup where
  board := fun sq => (s.board sq.mirrorV).map fun p => ⟨p.color.other, p.role⟩
  turn := s.turn.other
  castling_rights := s.castling_rights.map Square.mirrorV
  ep_square := s.ep_square.map Square.mirrorV

/-- The error enumeration of src/error.rs (`MaiaError`); the wrapped foreign
error payloads are modelled as strings. -/
inductive MaiaError where
  /-- `MaiaError::OrtError`: an error of the ONNX Runtime bindings. -/
  | ortError (msg : String)
  /-- `MaiaError::InvalidFen`: the FEN string could not be parsed. -/
  | invalidFen (msg : String)
  /-- `MaiaError::InvalidPosition`: the parsed position is not legal. -/
  | invalidPosition (msg : String)
  /-- `MaiaError::ShapeError`: an ndarray had an unexpected shape. -/
  | shapeError (msg : String)
deriving DecidableEq, Repr

/-- Result of running a fallible Rust function that may also panic:
`ok` models `Ok(..)`, `err` models `Err(..)`, `panicked` models a panic. -/
inductive Outcome (α : Type) where
  | ok (a : α)
  | err (e : MaiaError)
  | panicked (msg : String)
deriving DecidableEq, Repr

/-- Modelled from the spec: the rules engine's position legality check used by
`Setup::position` ("two kings, consistent castling rights"); the model keeps
the part the claims depend on, namely that a checked position exists exactly
when the check passes and is the unmodified setup.  The concrete predicate
requires exactly one king of each colour. -/
def positionValid (s : Setup) : Bool :=
  (Square.ALL.countP fun sq => decide (s.board sq = some ⟨Color.white, Role.king⟩)) = 1 &&
  (Square.ALL.countP fun sq => decide (s.board sq = some ⟨Color.black, Role.king⟩)) = 1

/-- A validated playable position, as in shakmaty's `Chess`; the model keeps
the underlying setup. -/
structure Chess where
  toSetup : Setup

instance : Inhabited Chess :=
  ⟨⟨{ board := fun _ => none, turn := .white, castling_rights := [], ep_square := none }⟩⟩

/-- The invalid-position message payload. -/
def invalidPositionMsg : String :=
  "Invalid Chess Position"

/-- Modelled from the spec: shakmaty's `setup.position(CastlingMode::Standard)`,
"the rules engine's legality-validating constructor; this fails with an
InvalidPosition condition if the descriptor is not a legal/consistent
position". -/
def Setup.position (s : Setup) : Except MaiaError Chess :=
  if positionValid s then .ok ⟨s⟩ else .error (.invalidPosition invalidPositionMsg)

/-- The per-rating bucketing rule of `map_elos_to_categories`
(src/tensor.rs): the body of the closure passed to `map`. -/
def eloCategory (e : Nat) : Int :=
  if e < 1100 then 0
  else if e ≥ 2000 then 10
  else ((e - 1100) / 100 + 1 : Nat)

/-- `map_elos_to_categories` (src/tensor.rs): convert raw ELO ratings to the
discrete category indices used by Maia2. -/
def map_elos_to_categories (elo : List Nat) : List Int :=
  elo.map eloCategory

/-- One item of the `[B, 18, 8, 8]` board tensor of src/tensor.rs, indexed by
(channel, rank, file); the cells hold only 0.0 and 1.0, modelled exactly
over `ℚ`. -/
abbrev BoardTensor : Type := Fin 18 → Fin 8 → Fin 8 → ℚ

/-- The `role_offset` match of `board_to_tensor` (src/tensor.rs). -/
def role_offset : Role → Nat
  | .pawn => 0
  | .knight => 1
  | .bishop => 2
  | .rook => 3
  | .queen => 4
  | .king => 5

/-- The channel written for a piece in `board_to_tensor` (src/tensor.rs):
`color_offset + role_offset`, white pieces in 0..5, black in 6..11. -/
def piece_channel (p : Piece) : Nat :=
  (if p.color.is_white then 0 else 6) + role_offset p.role

/-- The four rook home squares of the castling-rights block of
`board_to_tensor`. -/
def squareH1 : Square := ⟨7, 0⟩

/-- Rook home square a1. -/
def squareA1 : Square := ⟨0, 0⟩

/-- Rook home square h8. -/
def squareH8 : Square := ⟨7, 7⟩

/-- Rook home square a8. -/
def squareA8 : Square := ⟨0, 7⟩

/-- `board_to_tensor` (src/tensor.rs) as the cell-value function of the
written tensor.  The source starts from an all-zero `[18, 8, 8]` slice and
(1) writes 1.0 at `[piece_channel, sq.rank, sq.file]` for every occupied
square, (2) fills channel 12 with `turn.is_white`, (3) fills channels
13..16 with the four castling-rights tests, (4) writes 1.0 at the
en-passant square on channel 17.  Each cell is written by at most one of
these steps, so the resulting tensor is the following function of
(channel, rank, file). -/
def board_to_tensor (s : Setup) : BoardTensor := fun c r f =>
  if (c : Nat) < 12 then
    match s.board ⟨f, r⟩ with
    | some p => if piece_channel p = (c : Nat) then 1 else 0
    | none => 0
  else if (c : Nat) = 12 then (if s.turn.is_white then 1 else 0)
  else if (c : Nat) = 13 then (if squareH1 ∈ s.castling_rights then 1 else 0)
  else if (c : Nat) = 14 then (if squareA1 ∈ s.castling_rights then 1 else 0)
  else if (c : Nat) = 15 then (if squareH8 ∈ s.castling_rights then 1 else 0)
  else if (c : Nat) = 16 then (if squareA8 ∈ s.castling_rights then 1 else 0)
  else
    match s.ep_square with
    | some sq => if sq = ⟨f, r⟩ then 1 else 0
    | none => 0

/-- `PreprocessedData` (src/tensor.rs): the batched board tensor (modelled as
the list of per-item tensors, in input order), the mirror flags and the
possibly-mirrored validated positions. -/
structure PreprocessedData where
  board_tensor : List BoardTensor
  mirrored : List Bool
  chess_positions : List Chess

/-- Panic message of the in-loop batch-size check of `preprocess`. -/
def moreSetupsMsg : String :=
  "More setups provided than batch size"

/-- Panic message of the post-loop batch-size check of `preprocess`. -/
def fewerSetupsMsg : String :=
  "Fewer setups provided than batch size"

/-- The `for (i, mut setup) in setups.into_iter().enumerate()` loop of
`preprocess` (src/tensor.rs).  `i` is the index of the current head of
`setups`; `last_index` is the value of the source's `last_index` variable
before the iteration (the loop sets `last_index = i` first, checks
`i >= batch_size`, mirrors if Black is to move, renders the tensor and
validates the position).  Returns the final `last_index` and the per-item
(tensor, mirror flag, position) triples in input order. -/
def preprocessAux (batch_size : Nat) :
    Nat → Nat → List Setup → Outcome (Nat × List (BoardTensor × Bool × Chess))
  | _, last_index, [] => .ok (last_index, [])
  | i, _, s :: rest =>
    if batch_size ≤ i then .panicked moreSetupsMsg
    else
      let mirrored := s.turn.is_black
      let s' := if mirrored then s.mirror else s
      let tensor := board_to_tensor s'
      match s'.position with
      | .error e => .err e
      | .ok pos =>
        match preprocessAux batch_size (i + 1) i rest with
        | .ok (li, items) => .ok (li, (tensor, mirrored, pos) :: items)
        | .err e => .err e
        | .panicked m => .panicked m

/-- `preprocess` (src/tensor.rs): run the loop with `last_index`
initialized to 0, then panic when `last_index + 1 != batch_size`. -/
def preprocess (setups : List Setup) (batch_size : Nat) :
    Outcome PreprocessedData :=
  match preprocessAux batch_size 0 0 setups with
  | .panicked m => .panicked m
  | .err e => .err e
  | .ok (last_index, items) =>
    if last_index + 1 ≠ batch_size then .panicked fewerSetupsMsg
    else .ok ⟨items.map (·.1), items.map (·.2.1), items.map (·.2.2)⟩

/-- `MoveProbability` (src/types.rs): a move paired with its softmax
probability. -/
structure MoveProbability where
  uci : UciMove
  probability : ℝ

/-- `EvaluationResult` (src/types.rs): the sorted policy and the win
probability of the side to move. -/
structure EvaluationResult where
  policy : List MoveProbability
  value : ℝ

/-- The win-probability computation at the top of `Maia::process_output`
(src/maia.rs): `(raw_value / 2.0 + 0.5).clamp(0.0, 1.0)`, inverted when the
input position was mirrored.  Rust's `x.clamp(lo, hi)` is
`min hi (max lo x)`. -/
noncomputable def process_value (raw_value : ℝ) (mirrored : Bool) : ℝ :=
  let win_prob := min 1 (max 0 (raw_value / 2 + 0.5))
  if mirrored then 1 - win_prob else win_prob

/-- The `move_data` vector built by the legal-move loop of
`Maia::process_output` (src/maia.rs): for each legal move of the canonical
position, in enumeration order, look its UCI notation up in the vocabulary;
silently skip it when absent; otherwise record the (mirrored-back when
`mirrored`) notation together with the gathered logit. -/
def move_data_of (vocab : UciMove → Option Nat) (logits : Nat → ℝ)
    (legal_moves : List UciMove) (mirrored : Bool) : List (UciMove × ℝ) :=
  legal_moves.filterMap fun uci =>
    (vocab uci).map fun idx =>
      (if mirrored then uci.to_mirrored else uci, logits idx)

/-- The running maximum `max_logit` of `Maia::process_output`.  The source
initializes it at `f32::NEG_INFINITY` and folds `max` over the logits of
`move_data`, which for a non-empty `move_data` is its list maximum; when
`move_data` is empty no exponential is ever computed from it, so the
default 0 of the real-valued model is never consumed. -/
noncomputable def max_logit_of (move_data : List (UciMove × ℝ)) : ℝ :=
  ((move_data.map Prod.snd).maximum).unbot' 0

/-- The `sum_exp` accumulator of `Maia::process_output`: the sum of
`exp(logit - max_logit)` over `move_data`. -/
noncomputable def sum_exp_of (move_data : List (UciMove × ℝ)) : ℝ :=
  (move_data.map fun p => Real.exp (p.2 - max_logit_of move_data)).sum

/-- The comparator of the final `policy.sort_by(|a, b|
b.probability.partial_cmp(&a.probability).unwrap())` of
`Maia::process_output`: entry `a` may precede entry `b` exactly when
`b.probability <= a.probability` (descending order). -/
noncomputable def probOrd (a b : MoveProbability) : Bool :=
  decide (b.probability ≤ a.probability)

/-- The unsorted policy of `Maia::process_output` written directly as a
softmax: each vocabulary-present legal move paired with
`exp(logit - max) / sum_exp`.  The source builds the same list through the
intermediate `exps` vector; see `process_output`. -/
noncomputable def softmax_list (move_data : List (UciMove × ℝ)) :
    List MoveProbability :=
  move_data.map fun p =>
    ⟨p.1, Real.exp (p.2 - max_logit_of move_data) / sum_exp_of move_data⟩

/-- `Maia::process_output` (src/maia.rs): convert one item's raw logits row,
raw scalar value, canonical position and mirror flag into an
`EvaluationResult`.  `legal_moves_of` is the external rules engine's
`chess.legal_moves()` (each move already rendered in UCI notation, as by
`m.to_uci(CastlingMode::Standard)`); `vocab` is the embedded `ALL_MOVES`
table; `logits_maia` is the extracted row of the `logits_maia` output. -/
noncomputable def process_output (legal_moves_of : Chess → List UciMove)
    (vocab : UciMove → Option Nat) (logits_maia : Nat → ℝ) (raw_value : ℝ)
    (chess : Chess) (mirrored : Bool) : EvaluationResult :=
  let win_prob := process_value raw_value mirrored
  let legal_moves := legal_moves_of chess
  let move_data := move_data_of vocab logits_maia legal_moves mirrored
  let exps := move_data.map fun p => Real.exp (p.2 - max_logit_of move_data)
  let sum_exp := exps.sum
  let policy := (move_data.zip exps).map fun pe =>
    MoveProbability.mk pe.1.1 (pe.2 / sum_exp)
  ⟨policy.mergeSort probOrd, win_prob⟩

/-- The external inference engine (`self.session.run` together with the two
`try_extract_array` calls of `Maia::batch_evaluate`): consumes the board
tensor batch and the two bucketized rating vectors, produces the
`logits_maia` rows and the `logits_value` vector, or fails with an ONNX
Runtime error (modelled as a string, wrapped into `MaiaError.ortError`). -/
abbrev Engine : Type :=
  List BoardTensor → List Int → List Int →
    Except String (List (List ℝ) × List ℝ)

/-- Panic message of out-of-bounds indexing in the postprocessing loop. -/
def indexOutOfBoundsMsg : String :=
  "index out of bounds"

/-- The `for i in 0..batch_size` postprocessing loop of
`Maia::batch_evaluate` (src/maia.rs): index row `i` of `logits_maia`, entry
`i` of `logits_value`, `data.chess_positions[i]` and `data.mirrored[i]`
(each indexing panics when out of bounds) and collect the
`process_output` results in order.  `i` is the current index and `n` the
number of remaining iterations. -/
noncomputable def postprocessAux (legal_moves_of : Chess → List UciMove)
    (vocab : UciMove → Option Nat) (rows : List (List ℝ)) (vals : List ℝ)
    (positions : List Chess) (mirrored : List Bool) :
    Nat → Nat → Outcome (List EvaluationResult)
  | _, 0 => .ok []
  | i, n + 1 =>
    match rows.get? i, vals.get? i, positions.get? i, mirrored.get? i with
    | some row, some v, some c, some m =>
      match postprocessAux legal_moves_of vocab rows vals positions mirrored
          (i + 1) n with
      | .ok rest =>
        .ok (process_output legal_moves_of vocab (fun j => row.getD j 0) v c m
          :: rest)
      | .err e => .err e
      | .panicked msg => .panicked msg
    | _, _, _, _ => .panicked indexOutOfBoundsMsg

/-- Panic message of the `assert_eq!(elo_oppos.len(), batch_size)` at the top
of `Maia::batch_evaluate`. -/
def assertEqFailedMsg : String :=
  "assertion failed: elo_oppos.len() == batch_size"

/-- `Maia::batch_evaluate` (src/maia.rs).  `batch_size` is the length of
`elo_selfs`; the `assert_eq!` panics when `elo_oppos` has a different
length; preprocessing, bucketizing, one engine invocation and the
postprocessing loop follow.  The engine parameter models the owned ONNX
session. -/
noncomputable def batch_evaluate (legal_moves_of : Chess → List UciMove)
    (vocab : UciMove → Option Nat) (engine : Engine) (setups : List Setup)
    (elo_selfs elo_oppos : List Nat) : Outcome (List EvaluationResult) :=
  let batch_size := elo_selfs.length
  if elo_oppos.length ≠ batch_size then .panicked assertEqFailedMsg
  else
    match preprocess setups batch_size with
    | .panicked m => .panicked m
    | .err e => .err e
    | .ok data =>
      match engine data.board_tensor (map_elos_to_categories elo_selfs)
          (map_elos_to_categories elo_oppos) with
      | .error e => .err (.ortError e)
      | .ok (rows, vals) =>
        postprocessAux legal_moves_of vocab rows vals data.chess_positions
          data.mirrored 0 batch_size

/-- Panic message of `Option::unwrap` on `None`. -/
def unwrapNoneMsg : String :=
  "called Option::unwrap on a None value"

/-- `Maia::evaluate_fen` (src/maia.rs): parse the FEN via the external rules
engine (`parse_fen` models `fen.parse::<Fen>()` followed by `.into()`; a
parse failure surfaces as `MaiaError::InvalidFen`), delegate to
`batch_evaluate` with the one-element batch, and unwrap the first result. -/
noncomputable def evaluate_fen (parse_fen : String → Except String Setup)
    (legal_moves_of : Chess → List UciMove) (vocab : UciMove → Option Nat)
    (engine : Engine) (fen : String) (elo_self elo_oppo : Nat) :
    Outcome EvaluationResult :=
  match parse_fen fen with
  | .error e => .err (.invalidFen e)
  | .ok setup =>
    match batch_evaluate legal_moves_of vocab engine [setup] [elo_self]
        [elo_oppo] with
    | .ok results =>
      match results.head? with
      | some r => .ok r
      | none => .panicked unwrapNoneMsg
    | .err e => .err e
    | .panicked m => .panicked m

/-- The clamped pre-mirror win probability is non-negative. -/
lemma clamp_nonneg (x : ℝ) : 0 ≤ min 1 (max 0 x) :=
  le_min (by norm_num) (le_max_left 0 x)

/-- The clamped pre-mirror win probability is at most one. -/
lemma clamp_le_one (x : ℝ) : min 1 (max 0 x) ≤ 1 :=
  min_le_left 1 (max 0 x)

/-- `process_value` always lies in the unit interval. -/
lemma process_value_mem_unit (v : ℝ) (m : Bool) :
    0 ≤ process_value v m ∧ process_value v m ≤ 1 := by
  simp only [process_value]
  split <;> constructor <;>
    linarith [clamp_nonneg (v / 2 + 0.5), clamp_le_one (v / 2 + 0.5)]

/-- C2: for every rating value r, the Elo bucketizer maps r to 0 when
r < 1100, to 10 when r ≥ 2000, and to ((r − 1100) integer-div 100) + 1
otherwise, element-wise and order-preserving over the input sequence; in
particular `bucketize [0, 899, 1099, 1100, 1150, 1199, 1200, 1999, 2000,
2050] = [0, 0, 0, 1, 1, 1, 2, 9, 10, 10]`, and every output lies in
[0, 10]. -/
theorem c2_elo_bucketizer :
    (∀ elos : List Nat, map_elos_to_categories elos = elos.map eloCategory) ∧
    (∀ e : Nat, eloCategory e =
      if e < 1100 then 0
      else if 2000 ≤ e then 10
      else ((e - 1100) / 100 + 1 : Nat)) ∧
    map_elos_to_categories [0, 899, 1099, 1100, 1150, 1199, 1200, 1999, 2000, 2050] =
      [0, 0, 0, 1, 1, 1, 2, 9, 10, 10] ∧
    (∀ e : Nat, 0 ≤ eloCategory e ∧ eloCategory e ≤ 10) := by
  refine ⟨fun _ => rfl, fun e => by simp [eloCategory], by decide, fun e => ?_⟩
  unfold eloCategory
  split
  · exact ⟨le_refl 0, by norm_num⟩
  · split
    · exact ⟨by norm_num, le_refl 10⟩
    · constructor <;> omega

/-- C9: for the empty batch (empty setups iterator and two empty rating
slices, batch size 0), the preprocessing step panics — the post-loop check
`last_index + 1 != batch_size` compares 1 against 0 because `last_index`
is initialized to 0 and the loop body never runs — instead of returning an
empty result sequence or an error value. -/
theorem c9_empty_batch_panics :
    preprocess [] 0 = Outcome.panicked fewerSetupsMsg ∧
    ∀ (legal_moves_of : Chess → List UciMove) (vocab : UciMove → Option Nat)
      (engine : Engine),
      batch_evaluate legal_moves_of vocab engine [] [] [] =
        Outcome.panicked fewerSetupsMsg :=
  ⟨rfl, fun _ _ _ => rfl⟩

/-- C4: for every raw scalar value v and mirror flag m, the decoded win
probability equals `clamp (v / 2 + 0.5) 0 1` when m is false and
`1 - clamp (v / 2 + 0.5) 0 1` when m is true, always lies in [0, 1], the
mirrored result is one minus the unmirrored result, applying the mirror
inversion twice is the identity, and `process_output` returns exactly this
value. -/
theorem c4_value_decode (v : ℝ) (m : Bool) :
    process_value v m =
      (if m then 1 - min 1 (max 0 (v / 2 + 0.5))
       else min 1 (max 0 (v / 2 + 0.5))) ∧
    0 ≤ process_value v m ∧ process_value v m ≤ 1 ∧
    process_value v true = 1 - process_value v false ∧
    1 - (1 - process_value v m) = process_value v m ∧
    ∀ (legal_moves_of : Chess → List UciMove) (vocab : UciMove → Option Nat)
      (logits : Nat → ℝ) (chess : Chess),
      (process_output legal_moves_of vocab logits v chess m).value =
        process_value v m := by
  refine ⟨rfl, (process_value_mem_unit v m).1, (process_value_mem_unit v m).2,
    by simp [process_value], by ring, fun _ _ _ _ => rfl⟩

/-- The argument of the claims' literal tensor scenario: the piece placement
of "rnbqkbnr/pppp1ppp/8/4p3/4P3/8/PPPP1PPP/RNBQKBNR", a back rank. -/
def backRank (c : Color) : Nat → Option Piece
  | 0 => some ⟨c, .rook⟩
  | 1 => some ⟨c, .knight⟩
  | 2 => some ⟨c, .bishop⟩
  | 3 => some ⟨c, .queen⟩
  | 4 => some ⟨c, .king⟩
  | 5 => some ⟨c, .bishop⟩
  | 6 => some ⟨c, .knight⟩
  | 7 => some ⟨c, .rook⟩
  | _ => none

/-- The board of "rnbqkbnr/pppp1ppp/8/4p3/4P3/8/PPPP1PPP/RNBQKBNR": the
starting position after 1. e4 e5. -/
def e4e5Board (sq : Square) : Option Piece :=
  match sq.rank.val with
  | 0 => backRank .white sq.file.val
  | 1 => if sq.file.val = 4 then none else some ⟨.white, .pawn⟩
  | 3 => if sq.file.val = 4 then some ⟨.white, .pawn⟩ else none
  | 4 => if sq.file.val = 4 then some ⟨.black, .pawn⟩ else none
  | 6 => if sq.file.val = 4 then none else some ⟨.black, .pawn⟩
  | 7 => backRank .black sq.file.val
  | _ => none

/-- The setup parsed from
"rnbqkbnr/pppp1ppp/8/4p3/4P3/8/PPPP1PPP/RNBQKBNR w KQkq - 0 2":
White to move, all castling rights, no en-passant square. -/
def e4e5Setup : Setup where
  board := e4e5Board
  turn := .white
  castling_rights := [squareH1, squareA1, squareH8, squareA8]
  ep_square := none

/-- The (channel, rank, file) cells implied by the piece placement of the
literal scenario, written from the spec's channel table: white pieces on
channels 0..5 (pawn, knight, bishop, rook, queen, king), black on 6..11,
rank 1 at index 0, file a at index 0. -/
def e4e5PieceCells : List (Nat × Nat × Nat) :=
  [(3, 0, 0), (1, 0, 1), (2, 0, 2), (4, 0, 3), (5, 0, 4), (2, 0, 5),
   (1, 0, 6), (3, 0, 7),
   (0, 1, 0), (0, 1, 1), (0, 1, 2), (0, 1, 3), (0, 1, 5), (0, 1, 6),
   (0, 1, 7),
   (0, 3, 4),
   (6, 4, 4),
   (6, 6, 0), (6, 6, 1), (6, 6, 2), (6, 6, 3), (6, 6, 5), (6, 6, 6),
   (6, 6, 7),
   (9, 7, 0), (7, 7, 1), (8, 7, 2), (10, 7, 3), (11, 7, 4), (8, 7, 5),
   (7, 7, 6), (9, 7, 7)]

/-- The full expected tensor of the literal scenario: piece one-hots,
channels 12..16 uniformly 1.0 (White to move, all castling rights),
channel 17 all zero (no en-passant target). -/
def e4e5Expected (c r f : Nat) : ℚ :=
  if 12 ≤ c ∧ c ≤ 16 then 1
  else if (c, r, f) ∈ e4e5PieceCells then 1 else 0

/-- Piece channels stay below 12. -/
lemma piece_channel_lt_12 (p : Piece) : piece_channel p < 12 := by
  rcases p with ⟨c, r⟩
  rcases c <;> rcases r <;> decide

set_option maxHeartbeats 1000000 in
/-- C3: for every setup, the per-item encoded tensor has shape [18, 8, 8]
with channels 0..5 one-hot occupancy of White pieces in role order pawn,
knight, bishop, rook, queen, king; channels 6..11 the same for Black;
rank 1 at index 0 and file a at index 0; channel 12 uniformly filled with
1.0 iff the encoded side to move is White; channels 13..16 uniformly
filled per the four castling permissions; channel 17 one-hot at the
en-passant square or all zero.  For the position
"rnbqkbnr/pppp1ppp/8/4p3/4P3/8/PPPP1PPP/RNBQKBNR w KQkq - 0 2" the
tensor's cells are exactly the expected table. -/
theorem c3_tensor_layout :
    (∀ (s : Setup) (sq : Square) (p : Piece) (c : Fin 18),
      s.board sq = some p → (c : Nat) = piece_channel p →
      board_to_tensor s c sq.rank sq.file = 1) ∧
    (∀ (s : Setup) (c : Fin 18) (r f : Fin 8), (c : Nat) < 12 →
      board_to_tensor s c r f ≠ 0 →
      ∃ p, s.board ⟨f, r⟩ = some p ∧ (c : Nat) = piece_channel p) ∧
    (∀ p : Piece,
      piece_channel p = (if p.color = .white then 0 else 6) + role_offset p.role ∧
      role_offset .pawn = 0 ∧ role_offset .knight = 1 ∧
      role_offset .bishop = 2 ∧ role_offset .rook = 3 ∧
      role_offset .queen = 4 ∧ role_offset .king = 5) ∧
    (∀ (s : Setup) (r f : Fin 8),
      board_to_tensor s 12 r f = (if s.turn.is_white then 1 else 0) ∧
      board_to_tensor s 13 r f = (if squareH1 ∈ s.castling_rights then 1 else 0) ∧
      board_to_tensor s 14 r f = (if squareA1 ∈ s.castling_rights then 1 else 0) ∧
      board_to_tensor s 15 r f = (if squareH8 ∈ s.castling_rights then 1 else 0) ∧
      board_to_tensor s 16 r f = (if squareA8 ∈ s.castling_rights then 1 else 0) ∧
      board_to_tensor s 17 r f =
        (match s.ep_square with
         | some sq => if sq = ⟨f, r⟩ then 1 else 0
         | none => 0)) ∧
    (∀ (c : Fin 18) (r f : Fin 8),
      board_to_tensor e4e5Setup c r f = e4e5Expected c r f) := by
  refine ⟨?_, ?_, ?_, ?_, by decide⟩
  · intro s sq p c hboard hc
    have hlt : (c : Nat) < 12 := hc ▸ piece_channel_lt_12 p
    have hsq : (⟨sq.file, sq.rank⟩ : Square) = sq := rfl
    simp only [board_to_tensor, if_pos hlt, hsq, hboard, hc, if_pos rfl]
    simp [piece_channel_lt_12 p]
  · intro s c r f hlt hne
    simp only [board_to_tensor, if_pos hlt] at hne
    rcases hb : s.board ⟨f, r⟩ with _ | p <;> rw [hb] at hne <;> dsimp only at hne
    · simp at hne
    · refine ⟨p, rfl, ?_⟩
      by_contra hcp
      rw [if_neg (fun h => hcp h.symm)] at hne
      exact hne rfl
  · intro p
    rcases p with ⟨pc, pr⟩
    refine ⟨?_, rfl, rfl, rfl, rfl, rfl, rfl⟩
    rcases pc <;> simp [piece_channel, Color.is_white]
  · intro s r f
    refine ⟨rfl, rfl, rfl, rfl, rfl, rfl⟩

/-- Witness for C3 at a concrete cell: the white rook on a1 of the literal
scenario produces a 1.0 on channel 3 at rank index 0, file index 0. -/
theorem c3_tensor_layout_witness :
    e4e5Setup.board squareA1 = some ⟨Color.white, Role.rook⟩ ∧
    board_to_tensor e4e5Setup 3 squareA1.rank squareA1.file = 1 :=
  ⟨by decide,
   c3_tensor_layout.1 e4e5Setup squareA1 ⟨Color.white, Role.rook⟩ 3
     (by decide) (by decide)⟩

instance : Inhabited EvaluationResult :=
  ⟨⟨[], 0⟩⟩

/-- The per-item canonicalization of `preprocess`: mirror the setup exactly
when Black is to move. -/
def canonSetup (s : Setup) : Setup :=
  if s.turn.is_black then s.mirror else s

/-- Unfolding of one `preprocess` loop iteration in terms of
`canonSetup`. -/
lemma preprocessAux_cons (bs i li : Nat) (s : Setup) (rest : List Setup) :
    preprocessAux bs i li (s :: rest) =
      if bs ≤ i then .panicked moreSetupsMsg
      else
        match (canonSetup s).position with
        | .error e => .err e
        | .ok pos =>
          match preprocessAux bs (i + 1) i rest with
          | .ok (li2, items) =>
            .ok (li2, (board_to_tensor (canonSetup s), s.turn.is_black, pos) :: items)
          | .err e => .err e
          | .panicked m => .panicked m := rfl

/-- A successful position construction validates the setup and returns it
unchanged. -/
lemma position_ok_iff (s : Setup) (c : Chess) :
    s.position = .ok c ↔ positionValid s = true ∧ c = ⟨s⟩ := by
  unfold Setup.position
  split <;> rename_i hv
  · constructor
    · intro h
      exact ⟨hv, (Except.ok.inj h).symm⟩
    · rintro ⟨-, rfl⟩
      rfl
  · constructor
    · intro h
      cases h
    · rintro ⟨hv2, -⟩
      simp [hv] at hv2

/-- A failing position construction produces exactly the InvalidPosition
error. -/
lemma position_err (s : Setup) (e : MaiaError) :
    s.position = .error e → e = .invalidPosition invalidPositionMsg := by
  unfold Setup.position
  split
  · intro h; cases h
  · intro h
    exact (Except.error.inj h).symm

/-- Characterization of a successful `preprocess` loop: the produced items
are exactly the per-setup (tensor, flag, canonical position) triples in
input order, every canonical setup validates, and the returned
`last_index` is that of the last processed setup. -/
lemma preprocessAux_ok_spec (bs : Nat) :
    ∀ (setups : List Setup) (i li li' : Nat)
      (items : List (BoardTensor × Bool × Chess)),
      preprocessAux bs i li setups = .ok (li', items) →
      items = setups.map (fun s =>
        (board_to_tensor (canonSetup s), s.turn.is_black,
          (⟨canonSetup s⟩ : Chess))) ∧
      li' = (if setups.length = 0 then li else i + setups.length - 1) ∧
      ∀ s ∈ setups, positionValid (canonSetup s) = true := by
  intro setups
  induction setups with
  | nil =>
    intro i li li' items h
    simp only [preprocessAux] at h
    cases h
    simp
  | cons s rest ih =>
    intro i li li' items h
    rw [preprocessAux_cons] at h
    by_cases hbi : bs ≤ i
    · rw [if_pos hbi] at h; cases h
    · rw [if_neg hbi] at h
      cases hpos : (canonSetup s).position with
      | error e => rw [hpos] at h; cases h
      | ok pos =>
        rw [hpos] at h
        obtain ⟨hv, rfl⟩ := (position_ok_iff _ _).mp hpos
        cases hrec : preprocessAux bs (i + 1) i rest with
        | ok p =>
          obtain ⟨li2, items2⟩ := p
          rw [hrec] at h
          have hinj := Outcome.ok.inj h
          rw [Prod.mk.injEq] at hinj
          obtain ⟨h1, h2⟩ := hinj
          subst h1 h2
          obtain ⟨hitems, hli, hvalid⟩ := ih (i + 1) i li2 items2 hrec
          refine ⟨by simp [hitems], ?_, ?_⟩
          · rcases rest with _ | ⟨r, rest'⟩ <;> simp at hli ⊢ <;> omega
          · intro t ht
            rcases List.mem_cons.mp ht with rfl | ht'
            · exact hv
            · exact hvalid t ht'
        | err e => rw [hrec] at h; cases h
        | panicked m => rw [hrec] at h; cases h

/-- A failing `preprocess` loop can only fail with InvalidPosition. -/
lemma preprocessAux_err (bs : Nat) :
    ∀ (setups : List Setup) (i li : Nat) (e : MaiaError),
      preprocessAux bs i li setups = .err e →
      e = .invalidPosition invalidPositionMsg := by
  intro setups
  induction setups with
  | nil =>
    intro i li e h
    simp only [preprocessAux] at h
    cases h
  | cons s rest ih =>
    intro i li e h
    rw [preprocessAux_cons] at h
    by_cases hbi : bs ≤ i
    · rw [if_pos hbi] at h; cases h
    · rw [if_neg hbi] at h
      cases hpos : (canonSetup s).position with
      | error e2 =>
        rw [hpos] at h
        cases h
        exact position_err _ _ hpos
      | ok pos =>
        rw [hpos] at h
        cases hrec : preprocessAux bs (i + 1) i rest with
        | ok p => obtain ⟨li2, items2⟩ := p; rw [hrec] at h; cases h
        | err e2 =>
          rw [hrec] at h
          cases h
          exact ih (i + 1) i e hrec
        | panicked m => rw [hrec] at h; cases h

/-- Characterization of a successful `preprocess`: the batch either has
exactly `batch_size` setups or slips through the broken post-loop check
with zero setups and `batch_size = 1`; the three output sequences are the
per-setup maps, aligned by index with the input. -/
lemma preprocess_ok_spec (setups : List Setup) (bs : Nat)
    (d : PreprocessedData) (h : preprocess setups bs = .ok d) :
    (setups.length = bs ∨ (setups = [] ∧ bs = 1)) ∧
    d.board_tensor = setups.map (fun s => board_to_tensor (canonSetup s)) ∧
    d.mirrored = setups.map (fun s => s.turn.is_black) ∧
    d.chess_positions = setups.map (fun s => (⟨canonSetup s⟩ : Chess)) ∧
    ∀ s ∈ setups, positionValid (canonSetup s) = true := by
  unfold preprocess at h
  cases haux : preprocessAux bs 0 0 setups with
  | panicked m => rw [haux] at h; cases h
  | err e => rw [haux] at h; cases h
  | ok p =>
    obtain ⟨li, items⟩ := p
    rw [haux] at h
    dsimp only at h
    by_cases hli : li + 1 ≠ bs
    · rw [if_pos hli] at h; cases h
    · rw [if_neg hli] at h
      cases h
      obtain ⟨hitems, hlast, hvalid⟩ := preprocessAux_ok_spec bs setups 0 0 li items haux
      subst hitems
      refine ⟨?_, by simp, by simp, by simp, hvalid⟩
      rcases setups with _ | ⟨s, rest⟩
      · simp at hlast
        exact Or.inr ⟨rfl, by omega⟩
      · simp at hlast
        left
        simp only [List.length_cons]
        omega

/-- A failing `preprocess` can only fail with InvalidPosition. -/
lemma preprocess_err (setups : List Setup) (bs : Nat) (e : MaiaError)
    (h : preprocess setups bs = .err e) :
    e = .invalidPosition invalidPositionMsg := by
  unfold preprocess at h
  cases haux : preprocessAux bs 0 0 setups with
  | panicked m => rw [haux] at h; cases h
  | err e2 =>
    rw [haux] at h
    cases h
    exact preprocessAux_err bs setups 0 0 e haux
  | ok p =>
    obtain ⟨li, items⟩ := p
    rw [haux] at h
    dsimp only at h
    by_cases hli : li + 1 ≠ bs
    · rw [if_pos hli] at h; cases h
    · rw [if_neg hli] at h; cases h

/-- The postprocessing loop never produces a `Result::Err`: it either
succeeds or panics. -/
lemma postprocessAux_ne_err (legal_moves_of : Chess → List UciMove)
    (vocab : UciMove → Option Nat) (rows : List (List ℝ)) (vals : List ℝ)
    (pos : List Chess) (mir : List Bool) :
    ∀ (n i : Nat) (e : MaiaError),
      postprocessAux legal_moves_of vocab rows vals pos mir i n ≠ .err e := by
  intro n
  induction n with
  | zero => intro i e h; cases h
  | succ n ih =>
    intro i e h
    unfold postprocessAux at h
    cases hr : rows.get? i <;> rw [hr] at h <;>
      cases hv : vals.get? i <;> rw [hv] at h <;>
      cases hc : pos.get? i <;> rw [hc] at h <;>
      cases hm : mir.get? i <;> rw [hm] at h <;>
      try cases h
    cases hrec : postprocessAux legal_moves_of vocab rows vals pos mir (i + 1) n with
    | ok rest => rw [hrec] at h; cases h
    | err e2 => exact ih (i + 1) e2 hrec
    | panicked m => rw [hrec] at h; cases h

/-- Characterization of a successful postprocessing loop: it returns one
result per iteration, each obtained by `process_output` on the item's own
logits row, raw value, canonical position and mirror flag. -/
lemma postprocessAux_ok_spec (legal_moves_of : Chess → List UciMove)
    (vocab : UciMove → Option Nat) (rows : List (List ℝ)) (vals : List ℝ)
    (pos : List Chess) (mir : List Bool) :
    ∀ (n i : Nat) (rs : List EvaluationResult),
      postprocessAux legal_moves_of vocab rows vals pos mir i n = .ok rs →
      rs.length = n ∧
      ∀ k, k < n → ∃ row v c m,
        rows.get? (i + k) = some row ∧ vals.get? (i + k) = some v ∧
        pos.get? (i + k) = some c ∧ mir.get? (i + k) = some m ∧
        rs.getD k default =
          process_output legal_moves_of vocab (fun j => row.getD j 0) v c m := by
  intro n
  induction n with
  | zero =>
    intro i rs h
    simp only [postprocessAux] at h
    cases h
    exact ⟨rfl, fun k hk => absurd hk (Nat.not_lt_zero k)⟩
  | succ n ih =>
    intro i rs h
    unfold postprocessAux at h
    cases hr : rows.get? i <;> rw [hr] at h <;>
      cases hv : vals.get? i <;> rw [hv] at h <;>
      cases hc : pos.get? i <;> rw [hc] at h <;>
      cases hm : mir.get? i <;> rw [hm] at h <;>
      try cases h
    cases hrec : postprocessAux legal_moves_of vocab rows vals pos mir (i + 1) n with
    | ok rest =>
      rw [hrec] at h
      cases h
      obtain ⟨hlen, hspec⟩ := ih (i + 1) rest hrec
      refine ⟨by simp [hlen], ?_⟩
      intro k hk
      rcases k with _ | k
      · exact ⟨_, _, _, _, by simpa using hr, by simpa using hv,
          by simpa using hc, by simpa using hm, rfl⟩
      · obtain ⟨row, v, c, m, h1, h2, h3, h4, h5⟩ := hspec k (by omega)
        refine ⟨row, v, c, m, ?_, ?_, ?_, ?_, ?_⟩
        · rw [show i + (k + 1) = i + 1 + k by omega]; exact h1
        · rw [show i + (k + 1) = i + 1 + k by omega]; exact h2
        · rw [show i + (k + 1) = i + 1 + k by omega]; exact h3
        · rw [show i + (k + 1) = i + 1 + k by omega]; exact h4
        · simpa using h5
    | err e => rw [hrec] at h; cases h
    | panicked m => rw [hrec] at h; cases h

/-- When the positions list has no entry at the current index, the
postprocessing loop panics on out-of-bounds indexing. -/
lemma postprocessAux_oob (legal_moves_of : Chess → List UciMove)
    (vocab : UciMove → Option Nat) (rows : List (List ℝ)) (vals : List ℝ)
    (pos : List Chess) (mir : List Bool) (i n : Nat)
    (h : pos.get? i = none) :
    postprocessAux legal_moves_of vocab rows vals pos mir i (n + 1) =
      .panicked indexOutOfBoundsMsg := by
  unfold postprocessAux
  cases hr : rows.get? i <;> cases hv : vals.get? i <;>
    cases hm : mir.get? i <;> rw [h]

/-- `getD` agrees with a known `get?` result. -/
lemma getD_of_some {α : Type} {l : List α} {n : Nat} {a : α} (d : α)
    (h : l.get? n = some a) : l.getD n d = a := by
  simp [List.getD_eq_getElem?_getD, ← List.get?_eq_getElem?, h]

/-- The canonical setup always has White to move: a Black-to-move setup is
mirrored (which flips the turn) and a White-to-move setup is kept. -/
lemma canonSetup_turn (s : Setup) : (canonSetup s).turn = Color.white := by
  unfold canonSetup
  cases hs : s.turn
  · simp [hs, Color.is_black]
  · simp [hs, Color.is_black, Setup.mirror, Color.other]

/-- Inversion of a successful `batch_evaluate`: the assert passed, the
preprocessing succeeded, the engine was invoked once on the preprocessed
tensor batch and the bucketized ratings, and the postprocessing loop
succeeded on the engine's outputs. -/
lemma batch_ok_inv (legal_moves_of : Chess → List UciMove)
    (vocab : UciMove → Option Nat) (engine : Engine) (setups : List Setup)
    (es eo : List Nat) (results : List EvaluationResult)
    (h : batch_evaluate legal_moves_of vocab engine setups es eo = .ok results) :
    eo.length = es.length ∧
    ∃ d rows vals,
      preprocess setups es.length = .ok d ∧
      engine d.board_tensor (map_elos_to_categories es)
        (map_elos_to_categories eo) = .ok (rows, vals) ∧
      postprocessAux legal_moves_of vocab rows vals d.chess_positions
        d.mirrored 0 es.length = .ok results := by
  unfold batch_evaluate at h
  by_cases heo : eo.length ≠ es.length
  · rw [if_pos heo] at h; cases h
  · rw [if_neg heo] at h
    refine ⟨not_ne_iff.mp heo, ?_⟩
    cases hpp : preprocess setups es.length with
    | panicked m => rw [hpp] at h; cases h
    | err e => rw [hpp] at h; cases h
    | ok d =>
      rw [hpp] at h
      dsimp only at h
      cases heng : engine d.board_tensor (map_elos_to_categories es)
          (map_elos_to_categories eo) with
      | error s => rw [heng] at h; cases h
      | ok rv =>
        obtain ⟨rows, vals⟩ := rv
        rw [heng] at h
        exact ⟨d, rows, vals, rfl, heng, h⟩

/-- `batch_evaluate` can only fail (as a `Result::Err`) with an
InvalidPosition error from preprocessing or an engine error wrapped as
OrtError; in particular it never returns a ShapeError. -/
lemma batch_err_inv (legal_moves_of : Chess → List UciMove)
    (vocab : UciMove → Option Nat) (engine : Engine) (setups : List Setup)
    (es eo : List Nat) (e : MaiaError)
    (h : batch_evaluate legal_moves_of vocab engine setups es eo = .err e) :
    e = .invalidPosition invalidPositionMsg ∨ ∃ msg, e = .ortError msg := by
  unfold batch_evaluate at h
  by_cases heo : eo.length ≠ es.length
  · rw [if_pos heo] at h; cases h
  · rw [if_neg heo] at h
    cases hpp : preprocess setups es.length with
    | panicked m => rw [hpp] at h; cases h
    | err e2 =>
      rw [hpp] at h
      cases h
      exact Or.inl (preprocess_err setups es.length e hpp)
    | ok d =>
      rw [hpp] at h
      dsimp only at h
      cases heng : engine d.board_tensor (map_elos_to_categories es)
          (map_elos_to_categories eo) with
      | error s =>
        rw [heng] at h
        cases h
        exact Or.inr ⟨s, rfl⟩
      | ok rv =>
        obtain ⟨rows, vals⟩ := rv
        rw [heng] at h
        exact absurd h (postprocessAux_ne_err _ _ _ _ _ _ _ _ _)

/-- C6: for every setup processed by the encoder, the recorded mirror flag
is true iff the original setup had Black to move; the canonical position
stored for each item always has White to move; when the flag is true the
setup is mirrored before the tensor is rendered and the canonical position
constructed; and the flag is threaded unchanged from the encoder to the
decoder call of the same index inside `batch_evaluate`. -/
theorem c6_mirror_invariant (setups : List Setup) (bs : Nat)
    (d : PreprocessedData) (h : preprocess setups bs = .ok d) :
    d.mirrored = setups.map (fun s => s.turn.is_black) ∧
    d.chess_positions.map Chess.toSetup =
      setups.map (fun s => if s.turn.is_black then s.mirror else s) ∧
    (∀ c ∈ d.chess_positions, c.toSetup.turn = Color.white) ∧
    d.board_tensor = setups.map (fun s =>
      board_to_tensor (if s.turn.is_black then s.mirror else s)) ∧
    ∀ (legal_moves_of : Chess → List UciMove) (vocab : UciMove → Option Nat)
      (engine : Engine) (es eo : List Nat) (results : List EvaluationResult),
      es.length = bs →
      batch_evaluate legal_moves_of vocab engine setups es eo = .ok results →
      ∃ rows vals,
        engine d.board_tensor (map_elos_to_categories es)
          (map_elos_to_categories eo) = .ok (rows, vals) ∧
        results.length = bs ∧
        ∀ k, k < bs →
          results.getD k default =
            process_output legal_moves_of vocab
              (fun j => (rows.getD k []).getD j 0) (vals.getD k 0)
              (d.chess_positions.getD k default) (d.mirrored.getD k false) := by
  obtain ⟨hlen, hbt, hmir, hpos, hvalid⟩ := preprocess_ok_spec setups bs d h
  refine ⟨hmir, ?_, ?_, hbt, ?_⟩
  · rw [hpos, List.map_map]
    rfl
  · intro c hc
    rw [hpos] at hc
    obtain ⟨s, -, rfl⟩ := List.mem_map.mp hc
    exact canonSetup_turn s
  · intro legal_moves_of vocab engine es eo results hes hbe
    subst hes
    obtain ⟨-, d2, rows, vals, hpp2, heng, hpost⟩ :=
      batch_ok_inv legal_moves_of vocab engine setups es eo results hbe
    rw [h] at hpp2
    cases hpp2
    obtain ⟨hrl, hspec⟩ :=
      postprocessAux_ok_spec legal_moves_of vocab rows vals
        d.chess_positions d.mirrored es.length 0 results hpost
    refine ⟨rows, vals, heng, hrl, ?_⟩
    intro k hk
    obtain ⟨row, v, c, m, h1, h2, h3, h4, h5⟩ := hspec k hk
    rw [Nat.zero_add] at h1 h2 h3 h4
    rw [h5, getD_of_some [] h1, getD_of_some 0 h2,
      getD_of_some default h3, getD_of_some false h4]

/-- Witness batch for C6: a White-to-move and a Black-to-move two-king
setup. -/
def whiteKingsSetup : Setup where
  board := fun sq =>
    if sq = ⟨4, 0⟩ then some ⟨.white, .king⟩
    else if sq = ⟨4, 7⟩ then some ⟨.black, .king⟩
    else none
  turn := .white
  castling_rights := []
  ep_square := none

/-- The same two-king position with Black to move. -/
def blackKingsSetup : Setup where
  board := whiteKingsSetup.board
  turn := .black
  castling_rights := []
  ep_square := none

/-- The preprocessing output of the witness batch for C6. -/
def c6WitnessData : PreprocessedData :=
  match preprocess [whiteKingsSetup, blackKingsSetup] 2 with
  | .ok d => d
  | _ => ⟨[], [], []⟩

/-- Witness for C6: on the concrete two-setup batch, preprocessing succeeds
and the theorem yields the mirror flags [false, true] together with the
White-to-move property of the stored positions. -/
theorem c6_mirror_invariant_witness :
    preprocess [whiteKingsSetup, blackKingsSetup] 2 = .ok c6WitnessData ∧
    c6WitnessData.mirrored = [false, true] ∧
    ∀ c ∈ c6WitnessData.chess_positions, c.toSetup.turn = Color.white := by
  have hpp : preprocess [whiteKingsSetup, blackKingsSetup] 2 =
      .ok c6WitnessData := rfl
  obtain ⟨hmir, -, hturn, -, -⟩ :=
    c6_mirror_invariant [whiteKingsSetup, blackKingsSetup] 2 c6WitnessData hpp
  exact ⟨hpp, by rw [hmir]; rfl, hturn⟩

/-- A stub rules engine returning no legal moves. -/
def lmo0 : Chess → List UciMove := fun _ => []

/-- A stub vocabulary containing no moves. -/
def vocab0 : UciMove → Option Nat := fun _ => none

/-- A stub inference engine returning empty outputs. -/
def engine0 : Engine := fun _ _ _ => .ok ([], [])

/-- A stub inference engine that always fails. -/
def engine1 : Engine := fun _ _ _ => .error "stub failure"

/-- Counterexample to C1: calling `batch_evaluate` with rating slices of
lengths 1 and 0 does not fail with a ShapeMismatch error condition — it
panics through the `assert_eq!`, and no `MaiaError::ShapeError` value is
ever produced. -/
theorem c1_counterexample :
    batch_evaluate lmo0 vocab0 engine0 [] [1500] [] =
      Outcome.panicked assertEqFailedMsg ∧
    ¬ ∃ msg, batch_evaluate lmo0 vocab0 engine0 [] [1500] [] =
      Outcome.err (MaiaError.shapeError msg) := by
  refine ⟨rfl, ?_⟩
  rintro ⟨msg, hmsg⟩
  rw [show batch_evaluate lmo0 vocab0 engine0 [] [1500] [] =
      Outcome.panicked assertEqFailedMsg from rfl] at hmsg
  cases hmsg

/-- C1 (amended): for every call to `batch_evaluate` where the self-rating
length, the opponent-rating length and the setup count are not all equal,
the call never succeeds and never returns a ShapeMismatch error.  When the
two rating slices differ in length the call panics through the
`assert_eq!` before any encoding and without invoking the engine; when
they agree but the setup count differs and at least one setup is supplied,
the outcome does not depend on the engine either (the call panics inside
preprocessing or fails with InvalidPosition first).  The remaining corner
— zero setups with rating length one — slips through the broken post-loop
check, invokes the engine, and then panics on out-of-bounds indexing. -/
theorem c1_amended_mismatch_never_shape_error
    (legal_moves_of : Chess → List UciMove) (vocab : UciMove → Option Nat)
    (engine engine2 : Engine) (setups : List Setup) (es eo : List Nat)
    (h : ¬ (setups.length = es.length ∧ es.length = eo.length)) :
    (∀ results, batch_evaluate legal_moves_of vocab engine setups es eo ≠
      .ok results) ∧
    (∀ msg, batch_evaluate legal_moves_of vocab engine setups es eo ≠
      .err (.shapeError msg)) ∧
    (es.length ≠ eo.length →
      batch_evaluate legal_moves_of vocab engine setups es eo =
        .panicked assertEqFailedMsg) ∧
    (es.length = eo.length → setups ≠ [] →
      batch_evaluate legal_moves_of vocab engine setups es eo =
        batch_evaluate legal_moves_of vocab engine2 setups es eo) := by
  refine ⟨?_, ?_, ?_, ?_⟩
  · intro results hok
    obtain ⟨heo, d, rows, vals, hpp, -, hpost⟩ :=
      batch_ok_inv legal_moves_of vocab engine setups es eo results hok
    obtain ⟨hlen, -, -, hcp, -⟩ := preprocess_ok_spec setups es.length d hpp
    rcases hlen with hlen | ⟨rfl, hbs⟩
    · exact h ⟨hlen, heo.symm⟩
    · rw [hbs] at hpost
      rw [show d.chess_positions = [] by rw [hcp]; rfl] at hpost
      rw [postprocessAux_oob legal_moves_of vocab rows vals [] d.mirrored 0 0
        rfl] at hpost
      cases hpost
  · intro msg hmsg
    rcases batch_err_inv legal_moves_of vocab engine setups es eo _ hmsg with
      he | ⟨m2, he⟩ <;> cases he
  · intro hne
    unfold batch_evaluate
    rw [if_pos (fun hcontra => hne hcontra.symm)]
  · intro heq hne
    simp only [batch_evaluate]
    rw [if_neg (fun hcontra => hcontra heq.symm)]
    cases hpp : preprocess setups es.length with
    | panicked m => rw [if_neg (fun hcontra => hcontra heq.symm)]
    | err e => rw [if_neg (fun hcontra => hcontra heq.symm)]
    | ok d =>
      exfalso
      obtain ⟨hlen, -, -, -, -⟩ := preprocess_ok_spec setups es.length d hpp
      rcases hlen with hlen | ⟨hnil, -⟩
      · exact h ⟨hlen, heq⟩
      · exact hne hnil

/-- Witness for C1 (amended) at the concrete mismatched input of the
counterexample: one self rating, zero opponent ratings, zero setups. -/
theorem c1_amended_witness :
    (∀ results, batch_evaluate lmo0 vocab0 engine1 [] [1500] [] ≠
      .ok results) ∧
    (∀ msg, batch_evaluate lmo0 vocab0 engine1 [] [1500] [] ≠
      .err (.shapeError msg)) ∧
    ([1500].length ≠ ([] : List Nat).length →
      batch_evaluate lmo0 vocab0 engine1 [] [1500] [] =
        .panicked assertEqFailedMsg) ∧
    ([1500].length = ([] : List Nat).length → ([] : List Setup) ≠ [] →
      batch_evaluate lmo0 vocab0 engine1 [] [1500] [] =
        batch_evaluate lmo0 vocab0 engine0 [] [1500] []) :=
  c1_amended_mismatch_never_shape_error lmo0 vocab0 engine1 engine0 [] [1500] []
    (by simp)

/-- Mapping over the zip of a list with a map of itself. -/
lemma zip_self_map {α β γ : Type} (l : List α) (f : α → β) (g : α × β → γ) :
    (l.zip (l.map f)).map g = l.map fun a => g (a, f a) := by
  have h := List.zip_map' id f l
  rw [List.map_id] at h
  rw [h, List.map_map]
  rfl

/-- The policy of `process_output` is the stable sort of the explicit
softmax of its `move_data`: the source's `exps[i] / sum_exp` pairing is
pointwise exactly `softmax_list`. -/
lemma process_output_policy (legal_moves_of : Chess → List UciMove)
    (vocab : UciMove → Option Nat) (logits : Nat → ℝ) (v : ℝ) (chess : Chess)
    (m : Bool) :
    (process_output legal_moves_of vocab logits v chess m).policy =
      (softmax_list (move_data_of vocab logits (legal_moves_of chess) m)).mergeSort
        probOrd := by
  unfold process_output
  dsimp only
  rw [zip_self_map]
  rfl

/-- For non-empty `move_data`, the running maximum is attained by some
entry and bounds every entry. -/
lemma max_logit_spec (md : List (UciMove × ℝ)) (h : md ≠ []) :
    (∃ p ∈ md, p.2 = max_logit_of md) ∧
    ∀ p ∈ md, p.2 ≤ max_logit_of md := by
  have hne : md.map Prod.snd ≠ [] := by simp [h]
  have hbot := List.maximum_ne_bot_of_ne_nil hne
  obtain ⟨mx, hmx⟩ := WithBot.ne_bot_iff_exists.mp hbot
  obtain ⟨hmem, hub⟩ := List.maximum_eq_coe_iff.mp hmx.symm
  have hmax : max_logit_of md = mx := by
    rw [max_logit_of, ← hmx]
    rfl
  constructor
  · obtain ⟨p, hp, hpm⟩ := List.mem_map.mp hmem
    exact ⟨p, hp, by rw [hpm, hmax]⟩
  · intro p hp
    rw [hmax]
    exact hub p.2 (List.mem_map.mpr ⟨p, hp, rfl⟩)

/-- All shifted exponentials are non-negative. -/
lemma exps_nonneg (md : List (UciMove × ℝ)) :
    ∀ x ∈ md.map fun q => Real.exp (q.2 - max_logit_of md), 0 ≤ x := by
  intro x hx
  obtain ⟨q, -, rfl⟩ := List.mem_map.mp hx
  exact (Real.exp_pos _).le

/-- For non-empty `move_data` the softmax denominator is at least 1: the
maximal entry contributes `exp 0 = 1`. -/
lemma one_le_sum_exp (md : List (UciMove × ℝ)) (h : md ≠ []) :
    1 ≤ sum_exp_of md := by
  obtain ⟨⟨p, hp, hpm⟩, -⟩ := max_logit_spec md h
  have h1 : Real.exp (p.2 - max_logit_of md) = 1 := by
    rw [hpm, sub_self, Real.exp_zero]
  have hmem : Real.exp (p.2 - max_logit_of md) ∈
      md.map fun q => Real.exp (q.2 - max_logit_of md) :=
    List.mem_map.mpr ⟨p, hp, rfl⟩
  calc 1 = Real.exp (p.2 - max_logit_of md) := h1.symm
    _ ≤ sum_exp_of md := List.single_le_sum (exps_nonneg md) _ hmem

/-- The softmax denominator is strictly positive for non-empty data. -/
lemma sum_exp_pos (md : List (UciMove × ℝ)) (h : md ≠ []) :
    0 < sum_exp_of md :=
  lt_of_lt_of_le one_pos (one_le_sum_exp md h)

/-- Every softmax probability of a non-empty `move_data` lies in [0, 1]. -/
lemma softmax_mem_unit (md : List (UciMove × ℝ)) (h : md ≠ []) :
    ∀ q ∈ softmax_list md, 0 ≤ q.probability ∧ q.probability ≤ 1 := by
  intro q hq
  obtain ⟨p, hp, rfl⟩ := List.mem_map.mp hq
  dsimp only
  have hpos := sum_exp_pos md h
  refine ⟨div_nonneg (Real.exp_pos _).le hpos.le, ?_⟩
  rw [div_le_one hpos]
  exact List.single_le_sum (exps_nonneg md) _ (List.mem_map.mpr ⟨p, hp, rfl⟩)

/-- The softmax probabilities of a non-empty `move_data` sum to exactly 1
in the real-valued model. -/
lemma softmax_sum (md : List (UciMove × ℝ)) (h : md ≠ []) :
    ((softmax_list md).map MoveProbability.probability).sum = 1 := by
  unfold softmax_list
  rw [List.map_map]
  have hrw : (MoveProbability.probability ∘ fun p : UciMove × ℝ =>
      (⟨p.1, Real.exp (p.2 - max_logit_of md) / sum_exp_of md⟩ : MoveProbability)) =
      fun p : UciMove × ℝ =>
        Real.exp (p.2 - max_logit_of md) * (sum_exp_of md)⁻¹ := by
    funext p
    simp [div_eq_mul_inv]
  rw [hrw, List.sum_map_mul_right]
  exact mul_inv_cancel₀ (ne_of_gt (sum_exp_pos md h))

/-- The sort comparator holds exactly when the probabilities are in
descending order. -/
lemma probOrd_iff (a b : MoveProbability) :
    probOrd a b = true ↔ b.probability ≤ a.probability := by
  simp [probOrd]

/-- The sort comparator is transitive. -/
lemma probOrd_trans (a b c : MoveProbability) (hab : probOrd a b = true)
    (hbc : probOrd b c = true) : probOrd a c = true :=
  (probOrd_iff a c).mpr
    (le_trans ((probOrd_iff b c).mp hbc) ((probOrd_iff a b).mp hab))

/-- The sort comparator is total. -/
lemma probOrd_total (a b : MoveProbability) :
    (probOrd a b || probOrd b a) = true := by
  simp only [Bool.or_eq_true, probOrd_iff]
  exact le_total b.probability a.probability

/-- The indexed comparator used by the core stability characterization:
compare probabilities descending, and fall back to the original positions
on ties. -/
lemma enumLE_probOrd_iff (x y : Nat × MoveProbability) :
    List.enumLE probOrd x y = true ↔
      (y.2.probability ≤ x.2.probability ∧
        (x.2.probability ≤ y.2.probability → x.1 ≤ y.1)) := by
  unfold List.enumLE
  by_cases h1 : probOrd x.2 y.2 = true
  · by_cases h2 : probOrd y.2 x.2 = true
    · rw [if_pos h1, if_pos h2]
      simp only [decide_eq_true_eq]
      constructor
      · intro hxy
        exact ⟨(probOrd_iff _ _).mp h1, fun _ => hxy⟩
      · intro hr
        exact hr.2 ((probOrd_iff _ _).mp h2)
    · rw [if_pos h1, if_neg h2]
      constructor
      · intro _
        refine ⟨(probOrd_iff _ _).mp h1, fun hxy => ?_⟩
        exact absurd ((probOrd_iff _ _).mpr hxy) h2
      · intro _
        rfl
  · rw [if_neg h1]
    constructor
    · intro hfalse
      cases hfalse
    · intro hr
      exact absurd ((probOrd_iff _ _).mpr hr.1) h1

/-- The indexed comparator is transitive. -/
lemma enumLE_trans (a b c : Nat × MoveProbability)
    (hab : List.enumLE probOrd a b = true)
    (hbc : List.enumLE probOrd b c = true) :
    List.enumLE probOrd a c = true := by
  rw [enumLE_probOrd_iff] at hab hbc ⊢
  obtain ⟨h1, h2⟩ := hab
  obtain ⟨h3, h4⟩ := hbc
  refine ⟨le_trans h3 h1, fun hac => ?_⟩
  exact le_trans (h2 (le_trans hac h3)) (h4 (le_trans h1 hac))

/-- The indexed comparator is total. -/
lemma enumLE_total (a b : Nat × MoveProbability) :
    (List.enumLE probOrd a b || List.enumLE probOrd b a) = true := by
  simp only [Bool.or_eq_true, enumLE_probOrd_iff]
  by_cases hba : b.2.probability ≤ a.2.probability
  · by_cases hab : a.2.probability ≤ b.2.probability
    · rcases le_total a.1 b.1 with hi | hi
      · exact Or.inl ⟨hba, fun _ => hi⟩
      · exact Or.inr ⟨hab, fun _ => hi⟩
    · exact Or.inl ⟨hba, fun hh => absurd hh hab⟩
  · rcases le_total a.2.probability b.2.probability with hab | hab
    · exact Or.inr ⟨hab, fun hh => absurd hh hba⟩
    · exact absurd hab hba

set_option maxHeartbeats 800000 in
/-- C5: for every decoder input whose set of vocabulary-present legal moves
is non-empty, the policy probabilities are a numerically stable softmax
over exactly the gathered logits of that subset (maximum subtracted before
exponentiating, each exponential divided by the sum of exponentials), the
probabilities sum to 1 (exactly, in the real-valued model), and the output
is sorted by probability descending by a stable sort: it equals the stable
sort of the softmax list, and the indexed characterization shows that
equal probabilities keep the enumeration order. -/
theorem c5_softmax_sorted (legal_moves_of : Chess → List UciMove)
    (vocab : UciMove → Option Nat) (logits : Nat → ℝ) (v : ℝ) (chess : Chess)
    (m : Bool)
    (h : move_data_of vocab logits (legal_moves_of chess) m ≠ []) :
    (process_output legal_moves_of vocab logits v chess m).policy =
      (softmax_list (move_data_of vocab logits (legal_moves_of chess) m)).mergeSort
        probOrd ∧
    ((process_output legal_moves_of vocab logits v chess m).policy.map
      MoveProbability.probability).sum = 1 ∧
    (process_output legal_moves_of vocab logits v chess m).policy.Pairwise
      (fun a b => b.probability ≤ a.probability) ∧
    ((softmax_list (move_data_of vocab logits (legal_moves_of chess) m)).enum.mergeSort
        (List.enumLE probOrd)).map (fun x => x.2) =
      (process_output legal_moves_of vocab logits v chess m).policy ∧
    ((softmax_list (move_data_of vocab logits (legal_moves_of chess) m)).enum.mergeSort
        (List.enumLE probOrd)).Pairwise
      (fun a b => b.2.probability < a.2.probability ∨
        (a.2.probability = b.2.probability ∧ a.1 ≤ b.1)) := by
  refine ⟨process_output_policy legal_moves_of vocab logits v chess m, ?_, ?_, ?_, ?_⟩
  · rw [process_output_policy]
    rw [((List.mergeSort_perm _ probOrd).map MoveProbability.probability).sum_eq]
    exact softmax_sum _ h
  · rw [process_output_policy]
    exact (List.sorted_mergeSort probOrd_trans probOrd_total _).imp
      (fun hab => (probOrd_iff _ _).mp hab)
  · rw [process_output_policy]
    exact List.mergeSort_enum
  · refine (List.sorted_mergeSort enumLE_trans enumLE_total _).imp ?_
    intro a b hab
    rw [enumLE_probOrd_iff] at hab
    by_cases hle : a.2.probability ≤ b.2.probability
    · exact Or.inr ⟨le_antisymm hle hab.1, hab.2 hle⟩
    · exact Or.inl (lt_of_le_not_le hab.1 hle)

/-- A concrete one-square king move for the decoder witnesses. -/
def mv0 : UciMove := ⟨⟨0, 0⟩, ⟨0, 1⟩, none⟩

/-- The validated two-king position used by the decoder witnesses. -/
def chessW : Chess := ⟨whiteKingsSetup⟩

/-- A stub rules engine with a single legal move. -/
def lmoOne : Chess → List UciMove := fun _ => [mv0]

/-- A stub vocabulary mapping every move to index 0. -/
def vocabAll0 : UciMove → Option Nat := fun _ => some 0

/-- An all-zero logits row. -/
def logits0 : Nat → ℝ := fun _ => 0

/-- An all-five logits row. -/
def logits5 : Nat → ℝ := fun _ => 5

/-- Witness for C5 at the one-move decoder input with zero logits. -/
theorem c5_softmax_sorted_witness :
    move_data_of vocabAll0 logits0 (lmoOne chessW) false ≠ [] ∧
    ((process_output lmoOne vocabAll0 logits0 0 chessW false).policy.map
      MoveProbability.probability).sum = 1 ∧
    (process_output lmoOne vocabAll0 logits0 0 chessW false).policy.Pairwise
      (fun a b => b.probability ≤ a.probability) := by
  have hne : move_data_of vocabAll0 logits0 (lmoOne chessW) false ≠ [] := by
    rw [show move_data_of vocabAll0 logits0 (lmoOne chessW) false =
      [(mv0, (0 : ℝ))] from rfl]
    exact List.cons_ne_nil _ _
  obtain ⟨-, hsum, hsorted, -, -⟩ :=
    c5_softmax_sorted lmoOne vocabAll0 logits0 0 chessW false hne
  exact ⟨hne, hsum, hsorted⟩

/-- C10: for every decoder input whose set of vocabulary-present legal
moves is non-empty, the softmax denominator is at least 1 (the subtracted
maximum contributes `exp 0 = 1`) and hence strictly positive, and every
computed probability is a well-defined real number in [0, 1]; the
descending comparison of the final sort is therefore total on the policy
values. -/
theorem c10_probability_bounds (legal_moves_of : Chess → List UciMove)
    (vocab : UciMove → Option Nat) (logits : Nat → ℝ) (v : ℝ) (chess : Chess)
    (m : Bool)
    (h : move_data_of vocab logits (legal_moves_of chess) m ≠ []) :
    1 ≤ sum_exp_of (move_data_of vocab logits (legal_moves_of chess) m) ∧
    0 < sum_exp_of (move_data_of vocab logits (legal_moves_of chess) m) ∧
    (∀ q ∈ (process_output legal_moves_of vocab logits v chess m).policy,
      0 ≤ q.probability ∧ q.probability ≤ 1) ∧
    ∀ q ∈ (process_output legal_moves_of vocab logits v chess m).policy,
      ∀ q2 ∈ (process_output legal_moves_of vocab logits v chess m).policy,
        q.probability ≤ q2.probability ∨ q2.probability ≤ q.probability := by
  refine ⟨one_le_sum_exp _ h, sum_exp_pos _ h, ?_, ?_⟩
  · intro q hq
    rw [process_output_policy] at hq
    rw [List.mem_mergeSort] at hq
    exact softmax_mem_unit _ h q hq
  · intro q _ q2 _
    exact le_total q.probability q2.probability

/-- Witness for C10 at the one-move decoder input with logit 5. -/
theorem c10_probability_bounds_witness :
    move_data_of vocabAll0 logits5 (lmoOne chessW) false ≠ [] ∧
    1 ≤ sum_exp_of (move_data_of vocabAll0 logits5 (lmoOne chessW) false) ∧
    ∀ q ∈ (process_output lmoOne vocabAll0 logits5 0 chessW false).policy,
      0 ≤ q.probability ∧ q.probability ≤ 1 := by
  have hne : move_data_of vocabAll0 logits5 (lmoOne chessW) false ≠ [] := by
    rw [show move_data_of vocabAll0 logits5 (lmoOne chessW) false =
      [(mv0, (5 : ℝ))] from rfl]
    exact List.cons_ne_nil _ _
  obtain ⟨hone, -, hunit, -⟩ :=
    c10_probability_bounds lmoOne vocabAll0 logits5 0 chessW false hne
  exact ⟨hne, hone, hunit⟩

/-- The `move_data` loop records exactly one entry per vocabulary-present
legal move. -/
lemma move_data_length (vocab : UciMove → Option Nat) (logits : Nat → ℝ)
    (m : Bool) :
    ∀ legal : List UciMove,
      (move_data_of vocab logits legal m).length =
        (legal.filter fun u => (vocab u).isSome).length := by
  intro legal
  induction legal with
  | nil => rfl
  | cons u rest ih =>
    unfold move_data_of at ih ⊢
    cases hv : vocab u <;>
      simp [List.filterMap_cons, List.filter_cons, hv, ih]

/-- The recorded notations are the vocabulary-present legal moves, mirrored
back when the item was mirrored. -/
lemma move_data_fst (vocab : UciMove → Option Nat) (logits : Nat → ℝ)
    (m : Bool) :
    ∀ legal : List UciMove,
      (move_data_of vocab logits legal m).map Prod.fst =
        (legal.filter fun u => (vocab u).isSome).map
          fun u => if m then u.to_mirrored else u := by
  intro legal
  induction legal with
  | nil => rfl
  | cons u rest ih =>
    unfold move_data_of at ih ⊢
    cases hv : vocab u <;>
      simp [List.filterMap_cons, List.filter_cons, hv, ih]

/-- C7: for every decoded item, the policy contains exactly one entry per
legal move of the canonical position whose notation is in the vocabulary —
legal moves absent from the vocabulary are silently dropped, not an error
— so the policy length is the number of vocabulary-present legal moves
and at most the number of legal moves; a position with zero legal moves
decodes to an empty policy together with a well-defined win probability
in [0, 1]. -/
theorem c7_policy_per_legal_move (legal_moves_of : Chess → List UciMove)
    (vocab : UciMove → Option Nat) (logits : Nat → ℝ) (v : ℝ) (chess : Chess)
    (m : Bool) :
    (process_output legal_moves_of vocab logits v chess m).policy.length =
      ((legal_moves_of chess).filter fun u => (vocab u).isSome).length ∧
    (process_output legal_moves_of vocab logits v chess m).policy.length ≤
      (legal_moves_of chess).length ∧
    ((process_output legal_moves_of vocab logits v chess m).policy.map
      MoveProbability.uci).Perm
      (((legal_moves_of chess).filter fun u => (vocab u).isSome).map
        fun u => if m then u.to_mirrored else u) ∧
    (legal_moves_of chess = [] →
      (process_output legal_moves_of vocab logits v chess m).policy = [] ∧
      0 ≤ (process_output legal_moves_of vocab logits v chess m).value ∧
      (process_output legal_moves_of vocab logits v chess m).value ≤ 1) := by
  have hlen : (process_output legal_moves_of vocab logits v chess m).policy.length =
      ((legal_moves_of chess).filter fun u => (vocab u).isSome).length := by
    rw [process_output_policy, List.length_mergeSort, softmax_list,
      List.length_map, move_data_length]
  refine ⟨hlen, ?_, ?_, ?_⟩
  · rw [hlen]
    exact List.length_filter_le _ _
  · rw [process_output_policy]
    refine ((List.mergeSort_perm _ probOrd).map MoveProbability.uci).trans ?_
    rw [show (softmax_list (move_data_of vocab logits (legal_moves_of chess) m)).map
        MoveProbability.uci =
        (move_data_of vocab logits (legal_moves_of chess) m).map Prod.fst by
      unfold softmax_list
      rw [List.map_map]
      rfl]
    rw [move_data_fst]
  · intro he
    refine ⟨?_, (process_value_mem_unit v m).1, (process_value_mem_unit v m).2⟩
    rw [process_output_policy, he]
    rw [show move_data_of vocab logits [] m = [] from rfl]
    rw [show softmax_list [] = [] from rfl]
    exact List.mergeSort_nil

/-- Witness for C7 at the zero-legal-move decoder input. -/
theorem c7_policy_per_legal_move_witness :
    lmo0 chessW = [] ∧
    (process_output lmo0 vocab0 logits0 0 chessW false).policy = [] ∧
    0 ≤ (process_output lmo0 vocab0 logits0 0 chessW false).value ∧
    (process_output lmo0 vocab0 logits0 0 chessW false).value ≤ 1 :=
  ⟨rfl, (c7_policy_per_legal_move lmo0 vocab0 logits0 0 chessW false).2.2.2 rfl⟩

/-- A successful batch returns exactly one result per self-rating entry. -/
lemma batch_ok_length (legal_moves_of : Chess → List UciMove)
    (vocab : UciMove → Option Nat) (engine : Engine) (setups : List Setup)
    (es eo : List Nat) (results : List EvaluationResult)
    (h : batch_evaluate legal_moves_of vocab engine setups es eo = .ok results) :
    results.length = es.length := by
  obtain ⟨-, d, rows, vals, -, -, hpost⟩ :=
    batch_ok_inv legal_moves_of vocab engine setups es eo results h
  exact (postprocessAux_ok_spec legal_moves_of vocab rows vals
    d.chess_positions d.mirrored es.length 0 results hpost).1

/-- C8: single-position evaluation first parses the notation, failing with
InvalidFen when parsing fails, and otherwise returns exactly the sole
element of batch evaluation applied to the one-element batch of the parsed
setup and the two one-element rating sequences (errors and panics of the
batch call propagate unchanged, and a successful batch of one always holds
exactly one result). -/
theorem c8_evaluate_fen_delegates (parse_fen : String → Except String Setup)
    (legal_moves_of : Chess → List UciMove) (vocab : UciMove → Option Nat)
    (engine : Engine) (fen : String) (elo_self elo_oppo : Nat) :
    (∀ e, parse_fen fen = .error e →
      evaluate_fen parse_fen legal_moves_of vocab engine fen elo_self elo_oppo =
        .err (.invalidFen e)) ∧
    (∀ s, parse_fen fen = .ok s →
      (∀ e, batch_evaluate legal_moves_of vocab engine [s] [elo_self]
          [elo_oppo] = .err e →
        evaluate_fen parse_fen legal_moves_of vocab engine fen elo_self
          elo_oppo = .err e) ∧
      (∀ msg, batch_evaluate legal_moves_of vocab engine [s] [elo_self]
          [elo_oppo] = .panicked msg →
        evaluate_fen parse_fen legal_moves_of vocab engine fen elo_self
          elo_oppo = .panicked msg) ∧
      (∀ r rest, batch_evaluate legal_moves_of vocab engine [s] [elo_self]
          [elo_oppo] = .ok (r :: rest) →
        rest = [] ∧
        evaluate_fen parse_fen legal_moves_of vocab engine fen elo_self
          elo_oppo = .ok r) ∧
      batch_evaluate legal_moves_of vocab engine [s] [elo_self] [elo_oppo] ≠
        .ok ([] : List EvaluationResult)) := by
  constructor
  · intro e he
    unfold evaluate_fen
    rw [he]
  · intro s hs
    refine ⟨?_, ?_, ?_, ?_⟩
    · intro e he
      unfold evaluate_fen
      rw [hs]
      dsimp only
      rw [he]
    · intro msg hmsg
      unfold evaluate_fen
      rw [hs]
      dsimp only
      rw [hmsg]
    · intro r rest hok
      have hlen := batch_ok_length legal_moves_of vocab engine [s] [elo_self]
        [elo_oppo] (r :: rest) hok
      simp only [List.length_cons, List.length_nil] at hlen
      have hrest : rest = [] := List.eq_nil_of_length_eq_zero (by omega)
      refine ⟨hrest, ?_⟩
      unfold evaluate_fen
      rw [hs]
      dsimp only
      rw [hok]
      rfl
    · intro hok
      have hlen := batch_ok_length legal_moves_of vocab engine [s] [elo_self]
        [elo_oppo] [] hok
      simp at hlen

/-- The FEN string of the two-king witness position. -/
def fenW : String := "4k3/8/8/8/8/8/8/4K3 w - - 0 1"

/-- A stub FEN parser that accepts everything as the two-king setup. -/
def parseW : String → Except String Setup := fun _ => .ok whiteKingsSetup

/-- A stub engine producing one empty logits row and one zero value. -/
def engineW : Engine := fun _ _ _ => .ok ([[]], [0])

/-- Witness for C8: on the concrete stub pipeline the batch of one returns
exactly one result, and `evaluate_fen` returns exactly that result. -/
theorem c8_evaluate_fen_delegates_witness :
    parseW fenW = .ok whiteKingsSetup ∧
    batch_evaluate lmo0 vocab0 engineW [whiteKingsSetup] [1500] [1500] =
      .ok [⟨[], process_value 0 false⟩] ∧
    ([] : List EvaluationResult) = [] ∧
    evaluate_fen parseW lmo0 vocab0 engineW fenW 1500 1500 =
      .ok ⟨[], process_value 0 false⟩ := by
  have hpo : process_output lmo0 vocab0 (fun j => ([] : List ℝ).getD j 0) 0
      ⟨whiteKingsSetup⟩ false = ⟨[], process_value 0 false⟩ := by
    have hpol : (process_output lmo0 vocab0 (fun j => ([] : List ℝ).getD j 0) 0
        ⟨whiteKingsSetup⟩ false).policy = [] := by
      rw [process_output_policy]
      exact List.mergeSort_nil
    have hval : (process_output lmo0 vocab0 (fun j => ([] : List ℝ).getD j 0) 0
        ⟨whiteKingsSetup⟩ false).value = process_value 0 false := rfl
    rw [← hpol, ← hval]
  have hpp : preprocess [whiteKingsSetup] 1 =
      .ok ⟨[board_to_tensor whiteKingsSetup], [false], [⟨whiteKingsSetup⟩]⟩ := rfl
  have hbe : batch_evaluate lmo0 vocab0 engineW [whiteKingsSetup] [1500] [1500] =
      .ok [⟨[], process_value 0 false⟩] := by
    simp only [batch_evaluate]
    rw [if_neg (by simp)]
    rw [show ([1500] : List Nat).length = 1 from rfl, hpp]
    dsimp only
    rw [show engineW [board_to_tensor whiteKingsSetup]
        (map_elos_to_categories [1500]) (map_elos_to_categories [1500]) =
        .ok ([[]], [0]) from rfl]
    dsimp only
    unfold postprocessAux
    rw [show ([[]] : List (List ℝ)).get? 0 = some [] from rfl,
      show ([0] : List ℝ).get? 0 = some 0 from rfl,
      show ([(⟨whiteKingsSetup⟩ : Chess)]).get? 0 = some ⟨whiteKingsSetup⟩ from rfl,
      show ([false] : List Bool).get? 0 = some false from rfl]
    dsimp only
    rw [show postprocessAux lmo0 vocab0 [[]] [0] [⟨whiteKingsSetup⟩] [false] 1 0 =
      .ok [] from rfl]
    rw [hpo]
  refine ⟨rfl, hbe, ?_⟩
  exact ((c8_evaluate_fen_delegates parseW lmo0 vocab0 engineW fenW 1500
    1500).2 whiteKingsSetup rfl).2.2.1 ⟨[], process_value 0 false⟩ [] hbe

end Maia
